import Mathlib

/-!
Verification of the Hotkey-Helper matching and sync subsystem.

This file gives a shallow embedding of the core of
`src/shortcuts_manager.py` and `src/update_manager.py` and proves the
frozen claims about them.  Python dicts are modelled as association
lists with Python's insertion-order update semantics, Python `None`
returns as `Option.none`, and the Python standard library similarity
helper (`difflib.SequenceMatcher` / `difflib.get_close_matches`) is
embedded by its algorithm (Ratcliff/Obershelp: repeatedly take the
longest matching block found by the end-scan dynamic programming pass,
without the autojunk heuristic, which only activates on strings of
length at least 200).

Python float arithmetic on similarity scores is modelled by exact
unnormalized fractions (`Frac`, an integer numerator/denominator pair
compared by cross multiplication) so that every definition evaluates
inside the kernel; `Frac.toRat` maps a score to the rational number it
denotes, and the theorems speak about those rational values.
-/

set_option maxRecDepth 100000

namespace HotkeyHelper

/-! Exact fractions standing for the Python float values the code computes. -/

/-- An exact fraction `num/den`.  All fractions the embedded code builds
on Python-reachable paths have a positive denominator. -/
structure Frac where
  num : Int
  den : Int
deriving DecidableEq

/-- The rational value of a fraction. -/
def Frac.toRat (x : Frac) : ℚ := (x.num : ℚ) / (x.den : ℚ)

/-- Comparison `x <= y`, valid whenever both denominators are positive. -/
def Frac.fle (x y : Frac) : Bool := x.num * y.den ≤ y.num * x.den

/-- Comparison `x < y`, valid whenever both denominators are positive. -/
def Frac.flt (x y : Frac) : Bool := x.num * y.den < y.num * x.den

/-- Value equality `x == y`, valid whenever both denominators are positive. -/
def Frac.feq (x y : Frac) : Bool := x.num * y.den == y.num * x.den

/-- Addition of fractions. -/
def Frac.fadd (x y : Frac) : Frac := ⟨x.num * y.den + y.num * x.den, x.den * y.den⟩

/-- Multiplication of fractions. -/
def Frac.fmul (x y : Frac) : Frac := ⟨x.num * y.num, x.den * y.den⟩

theorem Frac.fle_iff {x y : Frac} (hx : 0 < x.den) (hy : 0 < y.den) :
    x.fle y = true ↔ x.toRat ≤ y.toRat := by
  have hx2 : (0 : ℚ) < (x.den : ℚ) := by exact_mod_cast hx
  have hy2 : (0 : ℚ) < (y.den : ℚ) := by exact_mod_cast hy
  rw [Frac.fle, decide_eq_true_eq, Frac.toRat, Frac.toRat, div_le_div_iff₀ hx2 hy2]
  exact ⟨fun h => by exact_mod_cast h, fun h => by exact_mod_cast h⟩

theorem Frac.flt_iff {x y : Frac} (hx : 0 < x.den) (hy : 0 < y.den) :
    x.flt y = true ↔ x.toRat < y.toRat := by
  have hx2 : (0 : ℚ) < (x.den : ℚ) := by exact_mod_cast hx
  have hy2 : (0 : ℚ) < (y.den : ℚ) := by exact_mod_cast hy
  rw [Frac.flt, decide_eq_true_eq, Frac.toRat, Frac.toRat, div_lt_div_iff₀ hx2 hy2]
  exact ⟨fun h => by exact_mod_cast h, fun h => by exact_mod_cast h⟩

theorem Frac.feq_iff {x y : Frac} (hx : 0 < x.den) (hy : 0 < y.den) :
    x.feq y = true ↔ x.toRat = y.toRat := by
  have hx2 : ((x.den : ℚ)) ≠ 0 := by positivity
  have hy2 : ((y.den : ℚ)) ≠ 0 := by positivity
  rw [Frac.feq, beq_iff_eq, Frac.toRat, Frac.toRat, div_eq_div_iff hx2 hy2]
  exact ⟨fun h => by exact_mod_cast h, fun h => by exact_mod_cast h⟩

/-! String helpers shared by the embedded Python code. -/

/-- ASCII lowercasing of one character, as Python `str.lower()` acts on
the ASCII range (the embedding restricts attention to ASCII case). -/
def charLower (c : Char) : Char :=
  if 65 ≤ c.toNat ∧ c.toNat ≤ 90 then Char.ofNat (c.toNat + 32) else c

/-- Python `s.lower()` (ASCII range). -/
def strLower (s : String) : String := ⟨s.toList.map charLower⟩

/-- Python whitespace (the ASCII characters matched by `str.strip()` and
by the regex class used in `normalize_app_name`). -/
def pyIsSpace (c : Char) : Bool :=
  c == ' ' || c == '\t' || c == '\n' || c == '\r' || c == '\x0b' || c == '\x0c'

/-- Python `str.strip()`: drop whitespace from both ends. -/
def pyStrip (s : String) : String :=
  ⟨(s.toList.dropWhile pyIsSpace).reverse.dropWhile pyIsSpace |>.reverse⟩

/-- Python `str.strip('"')`: drop double quotes from both ends. -/
def stripQuotes (s : String) : String :=
  ⟨(s.toList.dropWhile (· == '"')).reverse.dropWhile (· == '"') |>.reverse⟩

/-- Python substring containment test on char lists (`needle in hay`). -/
def isSubChars (n : List Char) : List Char → Bool
  | [] => n.isEmpty
  | c :: t => n.isPrefixOf (c :: t) || isSubChars n t

/-- Python `sub in s` on strings. -/
def isSubS (n s : String) : Bool := isSubChars n.toList s.toList

/-- Python `s.split(sep, 1)` when `sep` occurs: text before the first
occurrence and text after it, `none` when `sep` does not occur. -/
def splitFirstAux (sep : List Char) : List Char → Option (List Char × List Char)
  | [] => none
  | c :: cs =>
    if sep.isPrefixOf (c :: cs) then some ([], (c :: cs).drop sep.length)
    else (splitFirstAux sep cs).map (fun p => (c :: p.1, p.2))

def splitFirst (sep s : String) : Option (String × String) :=
  (splitFirstAux sep.toList s.toList).map (fun p => (⟨p.1⟩, ⟨p.2⟩))

/-- Python `s.split(sep)` for a non-empty separator, on char lists.  The
fuel argument only serves termination: every step consumes at least one
character, so `length + 1` units are never exhausted. -/
def splitSepF (sep : List Char) : Nat → List Char → List Char → List (List Char)
  | 0, rest, cur => [cur.reverse ++ rest]
  | _ + 1, [], cur => [cur.reverse]
  | fuel + 1, c :: cs, cur =>
    if sep ≠ [] ∧ sep.isPrefixOf (c :: cs) then
      cur.reverse :: splitSepF sep fuel ((c :: cs).drop sep.length) []
    else splitSepF sep fuel cs (c :: cur)

/-- Python `s.split(sep)` for a non-empty separator. -/
def pySplit (sep s : String) : List String :=
  (splitSepF sep.toList (s.toList.length + 1) s.toList []).map (fun l => ⟨l⟩)

/-! Embedding of `difflib.SequenceMatcher` (no junk, no autojunk). -/

/-- Length of the common prefix of two char lists. -/
def commonLen : List Char → List Char → Nat
  | a :: as, b :: bs => if a = b then commonLen as bs + 1 else 0
  | _, _ => 0

/-- Length of the longest common suffix of `a.take (i+1)` and
`b.take (j+1)`: the value `j2len[j]` that difflib's
`find_longest_match` dynamic programming scan holds after row `i`. -/
def kEnd (a b : List Char) (i j : Nat) : Nat :=
  commonLen ((a.take (i + 1)).reverse) ((b.take (j + 1)).reverse)

/-- The block `(besti, bestj, bestsize)` selected by difflib's
`find_longest_match` over the whole strings: scan end positions in
lexicographic order and keep the first strictly larger run. -/
def findLongestBlock (a b : List Char) : Nat × Nat × Nat :=
  (List.range a.length).foldl
    (fun st i =>
      (List.range b.length).foldl
        (fun st j =>
          let k := kEnd a b i j
          if st.2.2 < k then (i + 1 - k, j + 1 - k, k) else st)
        st)
    (0, 0, 0)

/-- Total size of all matching blocks (the `M` in difflib's ratio):
recursively split around the longest block.  The fuel argument only
serves termination; every recursive call strictly shortens `a`, so
`a.length + 1` units of fuel are never exhausted. -/
def matchTotalF : Nat → List Char → List Char → Nat
  | 0, _, _ => 0
  | fuel + 1, a, b =>
    let r := findLongestBlock a b
    if r.2.2 = 0 then 0
    else
      matchTotalF fuel (a.take r.1) (b.take r.2.1) + r.2.2 +
        matchTotalF fuel (a.drop (r.1 + r.2.2)) (b.drop (r.2.1 + r.2.2))

def matchTotal (a b : List Char) : Nat := matchTotalF (a.length + 1) a b

/-- The similarity `SequenceMatcher(None, a, b).ratio()`:
`2*M/(len(a)+len(b))`, and 1 when both strings are empty. -/
def ratioL (a b : List Char) : Frac :=
  if a.length + b.length = 0 then ⟨1, 1⟩
  else ⟨2 * (matchTotal a b : Int), (a.length : Int) + (b.length : Int)⟩

def ratioS (a b : String) : Frac := ratioL a.toList b.toList

theorem ratioL_den_pos (a b : List Char) : 0 < (ratioL a b).den := by
  rw [ratioL]
  split
  · exact Int.one_pos
  · rename_i h
    have : 0 < a.length + b.length := Nat.pos_of_ne_zero h
    simp only []
    omega

theorem ratioS_den_pos (a b : String) : 0 < (ratioS a b).den := ratioL_den_pos _ _

/-- One step of `difflib.get_close_matches(word, poss, n=1, cutoff)`:
keep a candidate whose ratio reaches the cutoff, replacing the current
best exactly when the pair `(ratio, string)` is strictly larger in the
lexicographic tuple order used by `heapq.nlargest`. -/
def gcmStep (w : String) (cutoff : Frac) (best : Option (Frac × String)) (x : String) :
    Option (Frac × String) :=
  let r := ratioS x w
  if cutoff.fle r then
    match best with
    | none => some (r, x)
    | some (rb, xb) =>
      if rb.flt r || (rb.feq r && decide (xb < x)) then some (r, x) else some (rb, xb)
  else best

/-- Embedding of `difflib.get_close_matches(word, poss, n=1, cutoff)`. -/
def getCloseMatches1 (w : String) (poss : List String) (cutoff : Frac) : Option String :=
  (poss.foldl (gcmStep w cutoff) none).map (fun p => p.2)

/-! Embedding of the application map handling of `ShortcutManager`. -/

/-- The value stored by `load_app_map`:
`app_map[app_name] = {"name": app_name, "version": version}`. -/
structure AppEntry where
  name : String
  version : String
deriving DecidableEq

/-- Python dict assignment `m[k] = v`: update in place when the key is
present, append otherwise (insertion order preserved). -/
def dictInsert {α : Type} (m : List (String × α)) (k : String) (v : α) :
    List (String × α) :=
  if m.any (fun p => p.1 == k) then
    m.map (fun p => if p.1 == k then (k, v) else p)
  else m ++ [(k, v)]

/-- Embedding of the parsing loop of `load_app_map`: a line containing a
colon is stripped and split on the first `": "`; when that yields two
parts the first, with double quotes stripped, becomes the key. -/
def parseAppMap (fileLines : List String) : List (String × AppEntry) :=
  fileLines.foldl
    (fun m line =>
      if line.toList.contains ':' then
        match splitFirst ": " (pyStrip line) with
        | some (rawName, version) =>
          let appName := stripQuotes rawName
          dictInsert m appName ⟨appName, version⟩
        | none => m
      else m)
    []

/-- Stable insertion placing `x` after every element at least as long,
so that folding over a list reproduces Python's stable
`sorted(keys, key=len, reverse=True)`. -/
def insertLen (x : String) : List String → List String
  | [] => [x]
  | y :: ys => if x.length ≤ y.length then y :: insertLen x ys else x :: y :: ys

def sortLenDesc (l : List String) : List String :=
  l.foldl (fun acc x => insertLen x acc) []

/-- The expression `self.app_map_cache[a].get("name", a)`. -/
def appGet (m : List (String × AppEntry)) (a : String) : String :=
  ((m.find? (fun p => p.1 == a)).map (fun p => p.2.name)).getD a

/-- Core of `find_best_match`, abstracted over the cached app map `m`
and the cached sorted key list `names` (the `app_map_cache` and
`app_names_sorted` attributes).  The `Option String` input models the
window title argument, `none` standing for Python `None`. -/
def matchCore (m : List (String × AppEntry)) (names : List String)
    (wt : Option String) : Option String :=
  match wt with
  | none => none
  | some t =>
    if t = "" then none
    else
      match names.find? (fun a => isSubS (strLower a) (strLower t)) with
      | some a => some (appGet m a)
      | none =>
        let t2 := if isSubS " - " t then pyStrip ((pySplit " - " t).getLastD t) else t
        match getCloseMatches1 (strLower t2) (m.map (fun p => p.1)) ⟨1, 2⟩ with
        | some b => some (appGet m b)
        | none => none

/-- Behaviour of `find_best_match` on a freshly constructed manager whose
map file holds the given lines: `load_app_map` parses the file, the
cached sorted name list is the stable length-descending sort of the
keys, and matching proceeds on the caches. -/
def find_best_match (fileLines : List String) (wt : Option String) : Option String :=
  let m := parseAppMap fileLines
  matchCore m (sortLenDesc (m.map (fun p => p.1))) wt

/-- The needle of the fuzzy pass of `find_best_match`: the title
truncated to the part after the last `" - "` separator when one is
present, stripped, then lowercased. -/
def fuzzyTitle (t : String) : String :=
  strLower (if isSubS " - " t then pyStrip ((pySplit " - " t).getLastD t) else t)

/-! Embedding of the shortcut-database lookup tiers of `get_shortcuts`. -/

/-- One application's shortcut payload, a JSON object modelled as an
association list (its internal shape never matters to the matcher). -/
abbrev Sh := List (String × String)

/-- The shortcut database: application name to payload. -/
abbrev ShortcutDb := List (String × Sh)

/-- Embedding of `normalize_app_name`: lowercase and remove whitespace. -/
def normalize_app_name (name : String) : String :=
  ⟨(strLower name).toList.filter (fun c => !pyIsSpace c)⟩

/-- Python `m[k]` / `k in m` on a dict modelled as an association list. -/
def lookupDict {α : Type} (m : List (String × α)) (k : String) : Option α :=
  (m.find? (fun p => p.1 == k)).map (fun p => p.2)

/-- Dict indexing where the key is known to be present (`m[k]`). -/
def lookupD (m : ShortcutDb) (k : String) : Sh := (lookupDict m k).getD []

/-- The containment score of a database key `app` against the normalized
query `nq`: `len(normalized_input) / len(normalized_app)` plus a `0.2`
bonus when the normalized key starts with the query. -/
def cScore (nq : String) (app : String) : Frac :=
  let na := normalize_app_name app
  let base : Frac := ⟨(nq.length : Int), (na.length : Int)⟩
  if nq.toList.isPrefixOf na.toList then base.fadd ⟨1, 5⟩ else base

/-- One iteration of the second-pass loop of `get_shortcuts`: replace
the current `(best_match, best_score)` exactly when the normalized query
is a substring of the normalized key and the score is strictly greater
than the best so far and at least `0.5`. -/
def containStep (nq : String) (st : Option String × Frac) (app : String) :
    Option String × Frac :=
  let na := normalize_app_name app
  if isSubS nq na then
    let score := cScore nq app
    if st.2.flt score && Frac.fle ⟨1, 2⟩ score then (some app, score) else st
  else st

/-- The second-pass loop of `get_shortcuts` over the database keys,
starting from no candidate and best score `0`. -/
def containScan (nq : String) (apps : List String) : Option String × Frac :=
  apps.foldl (containStep nq) (none, ⟨0, 1⟩)

/-- The `best_match` result of the containment pass. -/
def containmentBest (nq : String) (apps : List String) : Option String :=
  (containScan nq apps).1

/-- The strict fuzzy pass of `get_shortcuts`:
`get_close_matches(normalized_input, normalized keys, n=1, cutoff=0.9)`. -/
def strictPass (q : String) (db : ShortcutDb) : Option String :=
  getCloseMatches1 (normalize_app_name q)
    ((db.map (fun p => p.1)).map normalize_app_name) ⟨9, 10⟩

/-- The body of `get_shortcuts` after an application name `q` has been
resolved: exact key hit, then the strict normalized fuzzy pass, then the
containment pass, then the empty dict. -/
def getShortcutsForApp (q : String) (db : ShortcutDb) : Sh :=
  match lookupDict db q with
  | some s => s
  | none =>
    let apps := db.map (fun p => p.1)
    match strictPass q db with
    | some mn =>
      match apps.find? (fun a => normalize_app_name a == mn) with
      | some a => lookupD db a
      | none =>
        match containmentBest (normalize_app_name q) apps with
        | some b => lookupD db b
        | none => []
    | none =>
      match containmentBest (normalize_app_name q) apps with
      | some b => lookupD db b
      | none => []

/-- Behaviour of `get_shortcuts` on a freshly constructed manager: when
`find_best_match` produces a truthy name the lookup tiers run and a dict
is returned (`some`), otherwise the function body falls through its
final `if` and Python returns `None` (`none`). -/
def get_shortcuts (fileLines : List String) (db : ShortcutDb)
    (wt : Option String) : Option Sh :=
  match find_best_match fileLines wt with
  | some q => if q = "" then none else some (getShortcutsForApp q db)
  | none => none

/-! Embedding of the `ShortcutManager` cache state.  `load_app_map` and
`load_shortcut_cache` share the single `last_load_time` attribute; file
contents are passed explicitly (`none` models a missing file, `.error`
a JSON decode failure) and clock readings are explicit integers. -/

structure MState where
  appMapCache : Option (List (String × AppEntry))
  appNamesSorted : List String
  shortcutCache : Option ShortcutDb
  lastLoadTime : Int
deriving DecidableEq

/-- A shortcut-database file: either malformed JSON or a parsed dict. -/
inductive DbFile where
  | malformed
  | infos (d : ShortcutDb)
deriving DecidableEq

/-- Embedding of `load_app_map`: reload when the cache is empty or the
shared timestamp has expired; a missing file resets the caches to empty
without touching the timestamp. -/
def load_app_map_st (mapFile : Option (List String)) (now dur : Int)
    (s : MState) : MState :=
  if s.appMapCache = none ∨ dur < now - s.lastLoadTime then
    match mapFile with
    | some fileLines =>
      let m := parseAppMap fileLines
      { s with appMapCache := some m,
               appNamesSorted := sortLenDesc (m.map (fun p => p.1)),
               lastLoadTime := now }
    | none => { s with appMapCache := some [], appNamesSorted := [] }
  else s

/-- Embedding of `load_shortcut_cache`: reload when the cache is empty or
the shared timestamp has expired; a missing or malformed file resets the
cache to empty without touching the timestamp. -/
def load_shortcut_cache_st (dbFile : Option DbFile) (now dur : Int)
    (s : MState) : MState :=
  if s.shortcutCache = none ∨ dur < now - s.lastLoadTime then
    match dbFile with
    | some (.infos d) => { s with shortcutCache := some d, lastLoadTime := now }
    | some .malformed => { s with shortcutCache := some [] }
    | none => { s with shortcutCache := some [] }
  else s

/-- Stateful `find_best_match`: load the app map, then match against the
cached map and cached sorted name list. -/
def find_best_match_st (mapFile : Option (List String)) (now dur : Int)
    (s : MState) (wt : Option String) : Option String × MState :=
  let s1 := load_app_map_st mapFile now dur s
  (matchCore (s1.appMapCache.getD []) s1.appNamesSorted wt, s1)

/-- Stateful `get_shortcuts`: resolve the name (loading the app map),
then load the shortcut cache and run the lookup tiers. -/
def get_shortcuts_st (mapFile : Option (List String)) (dbFile : Option DbFile)
    (now dur : Int) (s : MState) (wt : Option String) : Option Sh × MState :=
  let r := find_best_match_st mapFile now dur s wt
  match r.1 with
  | some q =>
    if q = "" then (none, r.2)
    else
      let s2 := load_shortcut_cache_st dbFile now dur r.2
      (some (getShortcutsForApp q (s2.shortcutCache.getD [])), s2)
  | none => (none, r.2)

/-! Embedding of `update_manager.py`.  Firestore is abstracted as a list
of collection events: each either yields a collection (its id and its
top-level document ids) or raises a network error at that point of the
iteration.  The filesystem is three files; the remote counter value
(`get_total_shortcuts`) and the cancellation predicate are parameters.
A supplied progress callback is modelled by collecting the float values
passed to it. -/

/-- A step of the Firestore collection iteration. -/
inductive CollEvent where
  | coll (id : String) (docs : List String)
  | raiseNet
deriving DecidableEq

/-- The outcome of a Python call: a returned value or an uncaught
exception escaping the function. -/
inductive PyRes where
  | ret (b : Bool)
  | exn (name : String)
deriving DecidableEq

/-- Parsed content of the local database file as the downloader sees it:
collection id to list of document ids. -/
abbrev DbData := List (String × List String)

/-- A JSON file on disk: malformed or holding parsed data. -/
inductive FileJson where
  | malformed
  | data (d : DbData)
deriving DecidableEq

/-- The three files `download_all_collections` touches. -/
structure FsState where
  localDb : Option FileJson
  tempDb : Option FileJson
  updateLog : Option (String × Int)
deriving DecidableEq

/-- Embedding of `log_update`: the written `processed_shortcuts` field is
the count minus one (the code comments this as accounting for the final
increment). -/
def log_update (status : String) (processed : Int) (fs : FsState) : FsState :=
  { fs with updateLog := some (status, processed - 1) }

/-- The merge step `if collection.id not in all_data or
all_data[collection.id] != collection_data: all_data[...] = ...`. -/
def mergeColl (m : DbData) (id : String) (docs : List String) : DbData :=
  match lookupDict m id with
  | some old => if old = docs then m else dictInsert m id docs
  | none => dictInsert m id docs

/-- The per-document loop of `download_all_collections`: increment the
counter, invoke the callback with `processed / total * 100` (a zero
`total` raises `ZeroDivisionError`, caught by the function's handler,
which logs a failure), then poll the cancellation predicate.  An
`Except.error` carries an early return out of the whole function. -/
def dlDocs (total : Int) (cancel : Nat → Bool) (fs : FsState) :
    List String → Nat → List Frac →
      Except (PyRes × FsState × List Frac) (Nat × List Frac)
  | [], p, cbs => .ok (p, cbs)
  | _ :: ds, p, cbs =>
    let p2 := p + 1
    if total = 0 then .error (.ret false, log_update "failed" (p2 : Int) fs, cbs)
    else
      let cbs2 := cbs ++ [Frac.fmul ⟨(p2 : Int), total⟩ ⟨100, 1⟩]
      if cancel p2 then .error (.ret false, log_update "cancelled" (p2 : Int) fs, cbs2)
      else dlDocs total cancel fs ds p2 cbs2

/-- The collection loop of `download_all_collections`: poll cancellation
at the top of each iteration, merge the fetched collection, process its
documents; when the iteration raises a network error the handler logs a
failure and returns `False`.  After a complete pass, write the merged
data to the temp file, move it onto the final path, and log completion. -/
def dlLoop (total : Int) (cancel : Nat → Bool) (fs : FsState) :
    List CollEvent → DbData → Nat → List Frac → PyRes × FsState × List Frac
  | [], allData, p, cbs =>
    let fs1 := { fs with tempDb := some (.data allData) }
    let fs2 := { fs1 with localDb := fs1.tempDb, tempDb := none }
    (.ret true, log_update "completed" (p : Int) fs2, cbs)
  | .raiseNet :: _, _, p, cbs => (.ret false, log_update "failed" (p : Int) fs, cbs)
  | .coll id docs :: rest, allData, p, cbs =>
    if cancel p then (.ret false, log_update "cancelled" (p : Int) fs, cbs)
    else
      match dlDocs total cancel fs docs p cbs with
      | .error r => r
      | .ok pc => dlLoop total cancel fs rest (mergeColl allData id docs) pc.1 pc.2

/-- Embedding of `download_all_collections`.  When a local database file
exists it is first copied to the temp path and decoded: a malformed file
makes `json.load` raise before `processed_shortcuts` is assigned, so the
`except` handler's own `log_update("failed", processed_shortcuts)` call
raises `NameError` out of the function without writing any log. -/
def download_all_collections (events : List CollEvent) (total : Int)
    (cancel : Nat → Bool) (fs : FsState) : PyRes × FsState × List Frac :=
  match fs.localDb with
  | some .malformed => (.exn "NameError", { fs with tempDb := some .malformed }, [])
  | some (.data init) =>
    dlLoop total cancel { fs with tempDb := some (.data init) } events init 0 []
  | none => dlLoop total cancel fs events [] 0 []

/-- The sequence of progress fractions passed to the callback for units
`a, a+1, ..., a+n-1` out of `total`: each is `processed/total*100`. -/
def progList (total : Int) : Nat → Nat → List Frac
  | _, 0 => []
  | a, n + 1 => Frac.fmul ⟨(a : Int), total⟩ ⟨100, 1⟩ :: progList total (a + 1) n

/-- The rational values `a/total*100, (a+1)/total*100, ...`, the
denotation of `progList`. -/
def progRats (total : Int) : Nat → Nat → List ℚ
  | _, 0 => []
  | a, n + 1 => ((a : ℚ) / (total : ℚ) * 100) :: progRats total (a + 1) n

/-- Content of the update-log file as `get_local_shortcuts` sees it:
malformed JSON, or an object in which the `processed_shortcuts` key may
be absent. -/
inductive LogJson where
  | malformed
  | entry (processed : Option Int)
deriving DecidableEq

/-- Embedding of `get_local_shortcuts`: missing file, malformed JSON and
a missing key all produce 0. -/
def get_local_shortcuts (logFile : Option LogJson) : Int :=
  match logFile with
  | none => 0
  | some .malformed => 0
  | some (.entry none) => 0
  | some (.entry (some n)) => n

/-- Embedding of `check_for_db_updates`, with the remote counter value
returned by `get_total_shortcuts` as an explicit parameter. -/
def check_for_db_updates (logFile : Option LogJson) (remoteTotal : Int) : Bool :=
  if get_local_shortcuts logFile == remoteTotal then false else true

/-! A concrete two-call trace of the shared-timestamp cache (claim C9):
an app map with the single key "App", a shortcut database that changes
on disk between the two resolution calls, a TTL of 1 and call times 0
and 2, so both caches are past the TTL at the second call. -/

def c9MapLines : List String := ["App: 1"]

def c9DbOld : ShortcutDb := [("App", [("copy", "ctrl+c")])]

def c9DbNew : ShortcutDb := [("App", [("copy", "cmd+c")])]

/-- State of the manager after the first resolution call at time 0. -/
def c9State1 : MState :=
  (get_shortcuts_st (some c9MapLines) (some (.infos c9DbOld)) 0 1
    ⟨none, [], none, 0⟩ (some "App window")).2

/-! Structural lemmas about the sorted key list, `find?` and the parsed
application map. -/

theorem mem_insertLen {x a : String} : ∀ {l : List String},
    a ∈ insertLen x l ↔ a = x ∨ a ∈ l := by
  intro l
  induction l with
  | nil => simp [insertLen]
  | cons y ys ih =>
    rw [insertLen]
    split
    · simp only [List.mem_cons, ih]
      tauto
    · simp only [List.mem_cons]

theorem pairwise_insertLen {x : String} : ∀ {l : List String},
    l.Pairwise (fun a b => b.length ≤ a.length) →
    (insertLen x l).Pairwise (fun a b => b.length ≤ a.length) := by
  intro l
  induction l with
  | nil => simp [insertLen]
  | cons y ys ih =>
    intro h
    rw [List.pairwise_cons] at h
    obtain ⟨h1, h2⟩ := h
    rw [insertLen]
    split
    · rename_i hxy
      rw [List.pairwise_cons]
      refine ⟨?_, ih h2⟩
      intro b hb
      rcases mem_insertLen.mp hb with rfl | hb
      · exact hxy
      · exact h1 b hb
    · rename_i hxy
      rw [List.pairwise_cons]
      constructor
      · intro b hb
        rcases List.mem_cons.mp hb with rfl | hb
        · omega
        · exact le_trans (h1 b hb) (by omega)
      · rw [List.pairwise_cons]
        exact ⟨h1, h2⟩

theorem mem_foldl_insertLen {a : String} : ∀ (l acc : List String),
    a ∈ l.foldl (fun acc x => insertLen x acc) acc ↔ a ∈ acc ∨ a ∈ l := by
  intro l
  induction l with
  | nil => simp
  | cons y ys ih =>
    intro acc
    rw [List.foldl_cons, ih, mem_insertLen]
    simp only [List.mem_cons]
    tauto

theorem mem_sortLenDesc {a : String} {l : List String} :
    a ∈ sortLenDesc l ↔ a ∈ l := by
  rw [sortLenDesc, mem_foldl_insertLen]
  simp

theorem pairwise_foldl_insertLen : ∀ (l acc : List String),
    acc.Pairwise (fun a b => b.length ≤ a.length) →
    (l.foldl (fun acc x => insertLen x acc) acc).Pairwise
      (fun a b => b.length ≤ a.length) := by
  intro l
  induction l with
  | nil => intro acc h; exact h
  | cons y ys ih =>
    intro acc h
    rw [List.foldl_cons]
    exact ih _ (pairwise_insertLen h)

theorem pairwise_sortLenDesc (l : List String) :
    (sortLenDesc l).Pairwise (fun a b => b.length ≤ a.length) :=
  pairwise_foldl_insertLen l [] (by simp)

theorem find?_decomp {α : Type} {p : α → Bool} : ∀ {l : List α} {b : α},
    l.find? p = some b →
    ∃ l1 l2, l = l1 ++ b :: l2 ∧ ∀ a ∈ l1, p a = false := by
  intro l
  induction l with
  | nil => intro b h; simp [List.find?] at h
  | cons c cs ih =>
    intro b h
    by_cases hc : p c
    · rw [List.find?_cons_of_pos _ hc, Option.some_inj] at h
      exact ⟨[], cs, by simp [h], by simp⟩
    · rw [List.find?_cons_of_neg _ hc] at h
      obtain ⟨l1, l2, rfl, hall⟩ := ih h
      refine ⟨c :: l1, l2, rfl, ?_⟩
      intro a ha
      rcases List.mem_cons.mp ha with rfl | ha
      · exact Bool.of_not_eq_true hc
      · exact hall a ha

theorem mem_dictInsert {α : Type} {m : List (String × α)} {k : String} {v : α}
    {p : String × α} (h : p ∈ dictInsert m k v) : p ∈ m ∨ p = (k, v) := by
  rw [dictInsert] at h
  split at h
  · rcases List.mem_map.mp h with ⟨q, hq, rfl⟩
    by_cases hqk : (q.1 == k) = true
    · right; simp [hqk]
    · left; simpa [hqk] using hq
  · rcases List.mem_append.mp h with hq | hq
    · left; exact hq
    · right; simpa using hq

theorem parseAppMap_entry_name : ∀ (fileLines : List String)
    {p : String × AppEntry}, p ∈ parseAppMap fileLines → p.2.name = p.1 := by
  have aux : ∀ (fileLines : List String) (m : List (String × AppEntry)),
      (∀ p ∈ m, p.2.name = p.1) →
      ∀ p ∈ fileLines.foldl
        (fun m line =>
          if line.toList.contains ':' then
            match splitFirst ": " (pyStrip line) with
            | some (rawName, version) =>
              let appName := stripQuotes rawName
              dictInsert m appName ⟨appName, version⟩
            | none => m
          else m) m, p.2.name = p.1 := by
    intro fileLines
    induction fileLines with
    | nil => intro m hm; exact hm
    | cons line rest ih =>
      intro m hm
      rw [List.foldl_cons]
      apply ih
      split
      · split
        · rename_i rawName version heq
          intro p hp
          rcases mem_dictInsert hp with hp | rfl
          · exact hm p hp
          · rfl
        · exact hm
      · exact hm
  intro fileLines p hp
  exact aux fileLines [] (by simp) p hp

theorem appGet_eq {m : List (String × AppEntry)} {a : String}
    (h : ∀ p ∈ m, p.2.name = p.1) : appGet m a = a := by
  rw [appGet]
  cases hf : m.find? (fun p => p.1 == a) with
  | none => rfl
  | some p =>
    have h1 := List.find?_some hf
    have h2 : p.2.name = p.1 := h p (List.mem_of_find?_eq_some hf)
    simp only [Option.map_some', Option.getD_some, h2]
    exact eq_of_beq h1

/-! Claim C1: the exact substring pass. -/

/-- Claim C1: for every loaded application map and every window title
containing a known key as a case-insensitive substring, the exact pass
of `find_best_match` returns a key of the map that is itself a
case-insensitive substring of the title (its canonical name, since the
stored name of every entry is its key), and that key has maximal length
among all keys contained in the title, so with several substring keys
the longest one wins. -/
theorem claim_C1 (fileLines : List String) (t k : String) (ht : t ≠ "")
    (hk : k ∈ (parseAppMap fileLines).map (fun p => p.1))
    (hsub : isSubS (strLower k) (strLower t) = true) :
    ∃ b, find_best_match fileLines (some t) = some b ∧
      b ∈ (parseAppMap fileLines).map (fun p => p.1) ∧
      isSubS (strLower b) (strLower t) = true ∧
      ∀ k2 ∈ (parseAppMap fileLines).map (fun p => p.1),
        isSubS (strLower k2) (strLower t) = true → k2.length ≤ b.length := by
  have hknames : k ∈ sortLenDesc ((parseAppMap fileLines).map (fun p => p.1)) :=
    mem_sortLenDesc.mpr hk
  cases hf : (sortLenDesc ((parseAppMap fileLines).map (fun p => p.1))).find?
      (fun a => isSubS (strLower a) (strLower t)) with
  | none =>
    exact absurd hsub (by simpa using List.find?_eq_none.mp hf k hknames)
  | some b =>
    have hpb := List.find?_some hf
    have hbmem : b ∈ (parseAppMap fileLines).map (fun p => p.1) :=
      mem_sortLenDesc.mp (List.mem_of_find?_eq_some hf)
    refine ⟨b, ?_, hbmem, hpb, ?_⟩
    · rw [find_best_match, matchCore]
      simp only [if_neg ht, hf]
      rw [appGet_eq (fun p hp => parseAppMap_entry_name fileLines hp)]
    · intro k2 hk2 hsub2
      obtain ⟨l1, l2, hdec, hall⟩ := find?_decomp hf
      have hk2names : k2 ∈ sortLenDesc ((parseAppMap fileLines).map (fun p => p.1)) :=
        mem_sortLenDesc.mpr hk2
      rw [hdec] at hk2names
      have hpw := pairwise_sortLenDesc ((parseAppMap fileLines).map (fun p => p.1))
      rw [hdec, List.pairwise_append] at hpw
      rcases List.mem_append.mp hk2names with hmem | hmem
      · exact absurd hsub2 (by simp [hall k2 hmem])
      · rcases List.mem_cons.mp hmem with rfl | hmem
        · exact le_rfl
        · exact (List.pairwise_cons.mp hpw.2.1).1 k2 hmem

/-- Witness for C1 at a concrete input: with keys "Visual Studio Code"
and "Code" both contained in the title, a longest contained key is
returned. -/
theorem claim_C1_witness :
    ∃ b, find_best_match ["Visual Studio Code: 1", "Code: 2"]
        (some "proj - Visual Studio Code") = some b ∧
      b ∈ (parseAppMap ["Visual Studio Code: 1", "Code: 2"]).map (fun p => p.1) ∧
      isSubS (strLower b) (strLower "proj - Visual Studio Code") = true ∧
      ∀ k2 ∈ (parseAppMap ["Visual Studio Code: 1", "Code: 2"]).map (fun p => p.1),
        isSubS (strLower k2) (strLower "proj - Visual Studio Code") = true →
          k2.length ≤ b.length :=
  claim_C1 ["Visual Studio Code: 1", "Code: 2"] "proj - Visual Studio Code" "Code"
    (by decide) (by decide) (by decide)

/-! Characterization of the embedded `get_close_matches` fold. -/

theorem gcm_fold (w : String) (c : Frac) (hc : 0 < c.den) :
    ∀ (poss : List String) (acc : Option (Frac × String)),
    (∀ r0 x0, acc = some (r0, x0) → r0 = ratioS x0 w ∧ c.toRat ≤ r0.toRat) →
    (poss.foldl (gcmStep w c) acc = none →
        acc = none ∧ ∀ x ∈ poss, (ratioS x w).toRat < c.toRat) ∧
    (∀ r b, poss.foldl (gcmStep w c) acc = some (r, b) →
        r = ratioS b w ∧ c.toRat ≤ r.toRat ∧ (acc = some (r, b) ∨ b ∈ poss) ∧
        (∀ x ∈ poss, (ratioS x w).toRat ≤ r.toRat) ∧
        (∀ r0 x0, acc = some (r0, x0) → r0.toRat ≤ r.toRat)) := by
  intro poss
  induction poss with
  | nil =>
    intro acc hinv
    constructor
    · intro h
      exact ⟨h, by simp⟩
    · intro r b h
      rw [List.foldl_nil] at h
      obtain ⟨h1, h2⟩ := hinv r b h
      refine ⟨h1, h2, Or.inl h, by simp, ?_⟩
      intro r0 x0 h0
      rw [h0] at h
      cases h
      exact le_rfl
  | cons y ys ih =>
    intro acc hinv
    rw [List.foldl_cons]
    by_cases hcy : c.fle (ratioS y w) = true
    · have hcyQ : c.toRat ≤ (ratioS y w).toRat :=
        (Frac.fle_iff hc (ratioS_den_pos _ _)).mp hcy
      cases acc with
      | none =>
        have hstep : gcmStep w c none y = some (ratioS y w, y) := by
          simp [gcmStep, hcy]
        rw [hstep]
        have hinv2 : ∀ r1 x1, (some (ratioS y w, y) : Option (Frac × String)) =
            some (r1, x1) → r1 = ratioS x1 w ∧ c.toRat ≤ r1.toRat := by
          intro r1 x1 h1
          cases h1
          exact ⟨rfl, hcyQ⟩
        obtain ⟨ihn, ihs⟩ := ih (some (ratioS y w, y)) hinv2
        constructor
        · intro h
          exact absurd (ihn h).1 (by simp)
        · intro r b h
          obtain ⟨h1, h2, h3, h4, h5⟩ := ihs r b h
          refine ⟨h1, h2, ?_, ?_, ?_⟩
          · right
            rcases h3 with h3 | h3
            · cases h3
              exact List.mem_cons_self _ _
            · exact List.mem_cons_of_mem _ h3
          · intro x hx
            rcases List.mem_cons.mp hx with rfl | hx
            · exact h5 _ _ rfl
            · exact h4 x hx
          · intro r0 x0 h0
            exact absurd h0 (by simp)
      | some p =>
        obtain ⟨rb, xb⟩ := p
        obtain ⟨hrb, hcb⟩ := hinv rb xb rfl
        have hrbden : 0 < rb.den := by rw [hrb]; exact ratioS_den_pos _ _
        by_cases hupd :
            (rb.flt (ratioS y w) || (rb.feq (ratioS y w) && decide (xb < y))) = true
        · have hstep : gcmStep w c (some (rb, xb)) y = some (ratioS y w, y) := by
            simp only [gcmStep, hcy, if_true]
            rw [if_pos hupd]
          have hrble : rb.toRat ≤ (ratioS y w).toRat := by
            rcases Bool.or_eq_true_iff.mp hupd with h | h
            · exact le_of_lt ((Frac.flt_iff hrbden (ratioS_den_pos _ _)).mp h)
            · exact le_of_eq
                ((Frac.feq_iff hrbden (ratioS_den_pos _ _)).mp (Bool.and_elim_left h))
          rw [hstep]
          have hinv2 : ∀ r1 x1, (some (ratioS y w, y) : Option (Frac × String)) =
              some (r1, x1) → r1 = ratioS x1 w ∧ c.toRat ≤ r1.toRat := by
            intro r1 x1 h1
            cases h1
            exact ⟨rfl, hcyQ⟩
          obtain ⟨ihn, ihs⟩ := ih (some (ratioS y w, y)) hinv2
          constructor
          · intro h
            exact absurd (ihn h).1 (by simp)
          · intro r b h
            obtain ⟨h1, h2, h3, h4, h5⟩ := ihs r b h
            refine ⟨h1, h2, ?_, ?_, ?_⟩
            · right
              rcases h3 with h3 | h3
              · cases h3
                exact List.mem_cons_self _ _
              · exact List.mem_cons_of_mem _ h3
            · intro x hx
              rcases List.mem_cons.mp hx with rfl | hx
              · exact h5 _ _ rfl
              · exact h4 x hx
            · intro r0 x0 h0
              cases h0
              exact le_trans hrble (h5 _ _ rfl)
        · have hstep : gcmStep w c (some (rb, xb)) y = some (rb, xb) := by
            simp only [gcmStep, hcy, if_true]
            rw [if_neg (by simpa using hupd)]
          have hflt : rb.flt (ratioS y w) = false := by
            cases h2 : rb.flt (ratioS y w) with
            | false => rfl
            | true => rw [h2] at hupd; simp at hupd
          have hyler : (ratioS y w).toRat ≤ rb.toRat := by
            have h3 : ¬(rb.flt (ratioS y w) = true) := by simp [hflt]
            exact not_lt.mp ((Frac.flt_iff hrbden (ratioS_den_pos _ _)).not.mp h3)
          rw [hstep]
          obtain ⟨ihn, ihs⟩ := ih (some (rb, xb)) (by
            intro r1 x1 h1
            cases h1
            exact ⟨hrb, hcb⟩)
          constructor
          · intro h
            exact absurd (ihn h).1 (by simp)
          · intro r b h
            obtain ⟨h1, h2, h3, h4, h5⟩ := ihs r b h
            refine ⟨h1, h2, ?_, ?_, ?_⟩
            · rcases h3 with h3 | h3
              · exact Or.inl h3
              · exact Or.inr (List.mem_cons_of_mem _ h3)
            · intro x hx
              rcases List.mem_cons.mp hx with rfl | hx
              · exact le_trans hyler (h5 _ _ rfl)
              · exact h4 x hx
            · intro r0 x0 h0
              cases h0
              exact h5 _ _ rfl
    · have hcyQ : (ratioS y w).toRat < c.toRat := by
        exact not_le.mp ((Frac.fle_iff hc (ratioS_den_pos _ _)).not.mp hcy)
      have hstep : gcmStep w c acc y = acc := by
        simp [gcmStep, hcy]
      rw [hstep]
      obtain ⟨ihn, ihs⟩ := ih acc hinv
      constructor
      · intro h
        obtain ⟨h1, h2⟩ := ihn h
        refine ⟨h1, ?_⟩
        intro x hx
        rcases List.mem_cons.mp hx with rfl | hx
        · exact hcyQ
        · exact h2 x hx
      · intro r b h
        obtain ⟨h1, h2, h3, h4, h5⟩ := ihs r b h
        refine ⟨h1, h2, ?_, ?_, h5⟩
        · rcases h3 with h3 | h3
          · exact Or.inl h3
          · exact Or.inr (List.mem_cons_of_mem _ h3)
        · intro x hx
          rcases List.mem_cons.mp hx with rfl | hx
          · exact le_of_lt (lt_of_lt_of_le hcyQ h2)
          · exact h4 x hx

theorem getCloseMatches1_some_spec {w : String} {c : Frac} {poss : List String}
    {b : String} (hc : 0 < c.den) (h : getCloseMatches1 w poss c = some b) :
    b ∈ poss ∧ c.toRat ≤ (ratioS b w).toRat ∧
      ∀ x ∈ poss, (ratioS x w).toRat ≤ (ratioS b w).toRat := by
  rw [getCloseMatches1] at h
  cases hf : poss.foldl (gcmStep w c) none with
  | none => rw [hf] at h; simp at h
  | some p =>
    obtain ⟨r, b2⟩ := p
    rw [hf] at h
    simp only [Option.map_some', Option.some_inj] at h
    subst h
    obtain ⟨h1, h2, h3, h4, _⟩ :=
      (gcm_fold w c hc poss none (by simp)).2 r b2 hf
    rcases h3 with h3 | h3
    · simp at h3
    · rw [h1] at h2 h4
      exact ⟨h3, h2, h4⟩

theorem getCloseMatches1_none_spec {w : String} {c : Frac} {poss : List String}
    (hc : 0 < c.den) :
    getCloseMatches1 w poss c = none ↔
      ∀ x ∈ poss, (ratioS x w).toRat < c.toRat := by
  constructor
  · intro h
    rw [getCloseMatches1, Option.map_eq_none'] at h
    exact ((gcm_fold w c hc poss none (by simp)).1 h).2
  · intro hall
    cases hg : getCloseMatches1 w poss c with
    | none => rfl
    | some b =>
      obtain ⟨hmem, hge, _⟩ := getCloseMatches1_some_spec hc hg
      exact absurd hge (not_le.mpr (hall b hmem))

/-! Claim C3: the fuzzy fallback pass. -/

/-- Claim C3, amended: when no key passes the exact substring test and
the title is non-empty, `find_best_match` returns the result of the
closest-match search with cutoff `0.5` over the application-map keys
against the lowercased truncated title — the keys themselves are
compared in their original case, so the search is case-insensitive only
in the title, not in the keys.  The returned candidate, when any, is a
key whose similarity to the needle is at least `0.5` and maximal among
all keys, and the result is `None` exactly when every key scores below
`0.5`. -/
theorem claim_C3 (fileLines : List String) (t : String) (ht : t ≠ "")
    (hex : ∀ k2 ∈ (parseAppMap fileLines).map (fun p => p.1),
      isSubS (strLower k2) (strLower t) = false) :
    find_best_match fileLines (some t) =
      getCloseMatches1 (fuzzyTitle t)
        ((parseAppMap fileLines).map (fun p => p.1)) ⟨1, 2⟩ ∧
    (∀ b, getCloseMatches1 (fuzzyTitle t)
        ((parseAppMap fileLines).map (fun p => p.1)) ⟨1, 2⟩ = some b →
      b ∈ (parseAppMap fileLines).map (fun p => p.1) ∧
      (1 : ℚ) / 2 ≤ (ratioS b (fuzzyTitle t)).toRat ∧
      ∀ x ∈ (parseAppMap fileLines).map (fun p => p.1),
        (ratioS x (fuzzyTitle t)).toRat ≤ (ratioS b (fuzzyTitle t)).toRat) ∧
    (getCloseMatches1 (fuzzyTitle t)
        ((parseAppMap fileLines).map (fun p => p.1)) ⟨1, 2⟩ = none →
      ∀ x ∈ (parseAppMap fileLines).map (fun p => p.1),
        (ratioS x (fuzzyTitle t)).toRat < 1 / 2) := by
  have hhalfden : (0 : Int) < (Frac.mk 1 2).den := by norm_num
  have hhalf : (Frac.mk 1 2).toRat = 1 / 2 := by norm_num [Frac.toRat]
  have hfindnone :
      (sortLenDesc ((parseAppMap fileLines).map (fun p => p.1))).find?
        (fun a => isSubS (strLower a) (strLower t)) = none := by
    rw [List.find?_eq_none]
    intro x hx
    simp [hex x (mem_sortLenDesc.mp hx)]
  refine ⟨?_, ?_, ?_⟩
  · simp only [find_best_match, matchCore, if_neg ht, hfindnone, fuzzyTitle]
    cases hg : getCloseMatches1
        (strLower (if isSubS " - " t then pyStrip ((pySplit " - " t).getLastD t) else t))
        ((parseAppMap fileLines).map (fun p => p.1)) ⟨1, 2⟩ with
    | none => rfl
    | some b => simp only [appGet_eq (fun p hp => parseAppMap_entry_name fileLines hp)]
  · intro b hb
    obtain ⟨h1, h2, h3⟩ := getCloseMatches1_some_spec hhalfden hb
    rw [hhalf] at h2
    exact ⟨h1, h2, h3⟩
  · intro hnone x hx
    have := (getCloseMatches1_none_spec hhalfden).mp hnone x hx
    rwa [hhalf] at this

/-- Counterexample to claim C3 as stated: the fuzzy pass is not
case-insensitive over the keys.  With the single key "EMACS" and title
"EMAC" there is no substring match, the case-insensitive similarity of
the key to the lowered title is `8/9 ≥ 1/2` (so the claim says the key
is returned), but the code compares the raw key against the lowered
title, the similarity of "EMACS" to "emac" is `0`, and the matcher
returns `None`. -/
theorem claim_C3_cex :
    find_best_match ["EMACS: 1"] (some "EMAC") = none ∧
    (1 : ℚ) / 2 ≤ (ratioS (strLower "EMACS") (fuzzyTitle "EMAC")).toRat ∧
    (ratioS "EMACS" (fuzzyTitle "EMAC")).toRat = 0 := by
  refine ⟨by decide, ?_, ?_⟩
  · have h : ratioS (strLower "EMACS") (fuzzyTitle "EMAC") = ⟨8, 9⟩ := by decide
    rw [h]
    norm_num [Frac.toRat]
  · have h : ratioS "EMACS" (fuzzyTitle "EMAC") = ⟨0, 9⟩ := by decide
    rw [h]
    norm_num [Frac.toRat]

/-- Witness for the amended claim C3 at a concrete input: the near-miss
title "notepa" (one character off the key "notepad") resolves through
the fuzzy pass. -/
theorem claim_C3_witness :
    find_best_match ["notepad: 1"] (some "notepa") =
      getCloseMatches1 (fuzzyTitle "notepa")
        ((parseAppMap ["notepad: 1"]).map (fun p => p.1)) ⟨1, 2⟩ ∧
    (∀ b, getCloseMatches1 (fuzzyTitle "notepa")
        ((parseAppMap ["notepad: 1"]).map (fun p => p.1)) ⟨1, 2⟩ = some b →
      b ∈ (parseAppMap ["notepad: 1"]).map (fun p => p.1) ∧
      (1 : ℚ) / 2 ≤ (ratioS b (fuzzyTitle "notepa")).toRat ∧
      ∀ x ∈ (parseAppMap ["notepad: 1"]).map (fun p => p.1),
        (ratioS x (fuzzyTitle "notepa")).toRat ≤
          (ratioS b (fuzzyTitle "notepa")).toRat) ∧
    (getCloseMatches1 (fuzzyTitle "notepa")
        ((parseAppMap ["notepad: 1"]).map (fun p => p.1)) ⟨1, 2⟩ = none →
      ∀ x ∈ (parseAppMap ["notepad: 1"]).map (fun p => p.1),
        (ratioS x (fuzzyTitle "notepa")).toRat < 1 / 2) :=
  claim_C3 ["notepad: 1"] "notepa" (by decide) (by decide)

/-! Characterization of the containment scoring pass. -/

theorem cScore_den_pos {nq app : String}
    (h : 0 < (normalize_app_name app).length) : 0 < (cScore nq app).den := by
  simp only [cScore]
  split
  · simp only [Frac.fadd]
    omega
  · simpa using h

theorem contain_fold (nq : String) :
    ∀ (apps : List String) (st : Option String × Frac),
    (∀ a ∈ apps, 0 < (normalize_app_name a).length) →
    (st.1 = none → st.2 = ⟨0, 1⟩) →
    (∀ b0, st.1 = some b0 → st.2 = cScore nq b0 ∧
        isSubS nq (normalize_app_name b0) = true ∧
        0 < (normalize_app_name b0).length ∧
        (1 : ℚ) / 2 ≤ (cScore nq b0).toRat) →
    ((apps.foldl (containStep nq) st).1 = none →
        st.1 = none ∧ ∀ a ∈ apps, isSubS nq (normalize_app_name a) = true →
          (cScore nq a).toRat < 1 / 2) ∧
    (∀ b, (apps.foldl (containStep nq) st).1 = some b →
        (apps.foldl (containStep nq) st).2 = cScore nq b ∧
        isSubS nq (normalize_app_name b) = true ∧
        0 < (normalize_app_name b).length ∧
        (1 : ℚ) / 2 ≤ (cScore nq b).toRat ∧
        (∀ a ∈ apps, isSubS nq (normalize_app_name a) = true →
          (cScore nq a).toRat ≤ (cScore nq b).toRat) ∧
        ((st.1 = some b ∧ (apps.foldl (containStep nq) st).2 = st.2) ∨
          (∃ l1 l2, apps = l1 ++ b :: l2 ∧
            (∀ a ∈ l1, isSubS nq (normalize_app_name a) = true →
              (cScore nq a).toRat < (cScore nq b).toRat) ∧
            (∀ b0, st.1 = some b0 → st.2.toRat < (cScore nq b).toRat)))) := by
  have h12 : (Frac.mk 1 2).toRat = 1 / 2 := by norm_num [Frac.toRat]
  have h01 : (Frac.mk 0 1).toRat = 0 := by norm_num [Frac.toRat]
  intro apps
  induction apps with
  | nil =>
    intro st hlens hnone hsome
    refine ⟨fun h => ⟨h, by simp⟩, ?_⟩
    intro b h
    rw [List.foldl_nil] at h
    obtain ⟨h1, h2, h3, h4⟩ := hsome b h
    rw [List.foldl_nil]
    exact ⟨h1, h2, h3, h4, by simp, Or.inl ⟨h, rfl⟩⟩
  | cons y ys ih =>
    intro st hlens hnone hsome
    have hylen : 0 < (normalize_app_name y).length := hlens y (List.mem_cons_self _ _)
    have hyslens : ∀ a ∈ ys, 0 < (normalize_app_name a).length :=
      fun a ha => hlens a (List.mem_cons_of_mem _ ha)
    rw [List.foldl_cons]
    by_cases helig : isSubS nq (normalize_app_name y) = true
    · have hscden : 0 < (cScore nq y).den := cScore_den_pos hylen
      by_cases hupd : (st.2.flt (cScore nq y) && Frac.fle ⟨1, 2⟩ (cScore nq y)) = true
      · -- the candidate y replaces the current best
        have hstep : containStep nq st y = (some y, cScore nq y) := by
          simp only [containStep, helig, if_true]
          rw [if_pos hupd]
        have hupd' := hupd
        rw [Bool.and_eq_true] at hupd'
        obtain ⟨hupd1, hupd2⟩ := hupd'
        have hyhalf : (1 : ℚ) / 2 ≤ (cScore nq y).toRat := by
          have := (Frac.fle_iff (by norm_num) hscden).mp hupd2
          rwa [h12] at this
        have hstto : ∀ b0, st.1 = some b0 → st.2.toRat < (cScore nq y).toRat := by
          intro b0 h0
          obtain ⟨hst2, _, hlen0, _⟩ := hsome b0 h0
          have hstden : 0 < st.2.den := by rw [hst2]; exact cScore_den_pos hlen0
          exact (Frac.flt_iff hstden hscden).mp hupd1
        rw [hstep]
        have hnone2 : ((some y, cScore nq y) : Option String × Frac).1 = none →
            ((some y, cScore nq y) : Option String × Frac).2 = ⟨0, 1⟩ :=
          fun h => by simp at h
        have hsome2 : ∀ b0, ((some y, cScore nq y) : Option String × Frac).1 = some b0 →
            ((some y, cScore nq y) : Option String × Frac).2 = cScore nq b0 ∧
            isSubS nq (normalize_app_name b0) = true ∧
            0 < (normalize_app_name b0).length ∧
            (1 : ℚ) / 2 ≤ (cScore nq b0).toRat := by
          intro b0 h0
          have : y = b0 := by simpa using h0
          subst this
          exact ⟨rfl, helig, hylen, hyhalf⟩
        obtain ⟨ihn, ihs⟩ := ih (some y, cScore nq y) hyslens hnone2 hsome2
        constructor
        · intro h
          exact absurd (ihn h).1 (by simp)
        · intro b h
          obtain ⟨h1, h2, h3, h4, h5, h6⟩ := ihs b h
          refine ⟨h1, h2, h3, h4, ?_, ?_⟩
          · intro a ha he
            rcases List.mem_cons.mp ha with rfl | ha
            · rcases h6 with ⟨hb6, hr6⟩ | ⟨l1, l2, hdec, hl1, hinit⟩
              · have hyb : a = b := by simpa using hb6
                exact le_of_eq (by rw [hyb])
              · exact le_of_lt (hinit a rfl)
            · exact h5 a ha he
          · rcases h6 with ⟨hb6, hr6⟩ | ⟨l1, l2, hdec, hl1, hinit⟩
            · have hyb : y = b := by simpa using hb6
              subst hyb
              refine Or.inr ⟨[], ys, rfl, by simp, ?_⟩
              intro b0 h0
              exact hstto b0 h0
            · refine Or.inr ⟨y :: l1, l2, by rw [hdec, List.cons_append], ?_, ?_⟩
              · intro a ha he
                rcases List.mem_cons.mp ha with rfl | ha
                · exact hinit a rfl
                · exact hl1 a ha he
              · intro b0 h0
                exact lt_trans (hstto b0 h0) (hinit y rfl)
      · -- the candidate y does not replace the current best
        have hstep : containStep nq st y = st := by
          simp only [containStep, helig, if_true]
          rw [if_neg hupd]
        have hnotand : ¬(st.2.flt (cScore nq y) = true ∧
            Frac.fle ⟨1, 2⟩ (cScore nq y) = true) := by
          rw [← Bool.and_eq_true]; exact hupd
        have hynotwin : st.1 = none → (cScore nq y).toRat < 1 / 2 := by
          intro h0
          have hst2 : st.2 = ⟨0, 1⟩ := hnone h0
          rcases not_and_or.mp hnotand with hh | hh
          · rw [hst2] at hh
            have := (Frac.flt_iff (x := ⟨0, 1⟩) (by norm_num) hscden).not.mp hh
            rw [h01] at this
            exact lt_of_le_of_lt (not_lt.mp this) (by norm_num)
          · have := (Frac.fle_iff (x := ⟨1, 2⟩) (by norm_num) hscden).not.mp hh
            rw [h12] at this
            exact not_le.mp this
        have hybound : ∀ b0, st.1 = some b0 →
            ((cScore nq y).toRat ≤ st.2.toRat ∨ (cScore nq y).toRat < 1 / 2) := by
          intro b0 h0
          obtain ⟨hst2, _, hlen0, _⟩ := hsome b0 h0
          have hstden : 0 < st.2.den := by rw [hst2]; exact cScore_den_pos hlen0
          rcases not_and_or.mp hnotand with hh | hh
          · left
            exact not_lt.mp ((Frac.flt_iff hstden hscden).not.mp hh)
          · right
            have := (Frac.fle_iff (x := ⟨1, 2⟩) (by norm_num) hscden).not.mp hh
            rw [h12] at this
            exact not_le.mp this
        rw [hstep]
        obtain ⟨ihn, ihs⟩ := ih st hyslens hnone hsome
        constructor
        · intro h
          obtain ⟨h1, h2⟩ := ihn h
          refine ⟨h1, ?_⟩
          intro a ha he
          rcases List.mem_cons.mp ha with rfl | ha
          · exact hynotwin h1
          · exact h2 a ha he
        · intro b h
          obtain ⟨h1, h2, h3, h4, h5, h6⟩ := ihs b h
          have hstleb : ∀ b0, st.1 = some b0 → st.2.toRat ≤ (cScore nq b).toRat := by
            intro b0 h0
            rcases h6 with ⟨hb6, hr6⟩ | ⟨l1, l2, hdec, hl1, hinit⟩
            · rw [← hr6, h1]
            · exact le_of_lt (hinit b0 h0)
          refine ⟨h1, h2, h3, h4, ?_, ?_⟩
          · intro a ha he
            rcases List.mem_cons.mp ha with rfl | ha
            · cases hst1 : st.1 with
              | none => exact le_trans (le_of_lt (hynotwin hst1)) h4
              | some b0 =>
                rcases hybound b0 hst1 with hb | hb
                · exact le_trans hb (hstleb b0 hst1)
                · exact le_trans (le_of_lt hb) h4
            · exact h5 a ha he
          · rcases h6 with ⟨hb6, hr6⟩ | ⟨l1, l2, hdec, hl1, hinit⟩
            · exact Or.inl ⟨hb6, hr6⟩
            · refine Or.inr ⟨y :: l1, l2, by rw [hdec, List.cons_append], ?_, hinit⟩
              intro a ha he
              rcases List.mem_cons.mp ha with rfl | ha
              · cases hst1 : st.1 with
                | none => exact lt_of_lt_of_le (hynotwin hst1) h4
                | some b0 =>
                  rcases hybound b0 hst1 with hb | hb
                  · exact lt_of_le_of_lt hb (hinit b0 hst1)
                  · exact lt_of_lt_of_le hb h4
              · exact hl1 a ha he
    · have hstep : containStep nq st y = st := by simp [containStep, helig]
      rw [hstep]
      obtain ⟨ihn, ihs⟩ := ih st hyslens hnone hsome
      constructor
      · intro h
        obtain ⟨h1, h2⟩ := ihn h
        refine ⟨h1, ?_⟩
        intro a ha he
        rcases List.mem_cons.mp ha with rfl | ha
        · exact absurd he helig
        · exact h2 a ha he
      · intro b h
        obtain ⟨h1, h2, h3, h4, h5, h6⟩ := ihs b h
        refine ⟨h1, h2, h3, h4, ?_, ?_⟩
        · intro a ha he
          rcases List.mem_cons.mp ha with rfl | ha
          · exact absurd he helig
          · exact h5 a ha he
        · rcases h6 with h6 | ⟨l1, l2, hdec, hl1, hinit⟩
          · exact Or.inl h6
          · refine Or.inr ⟨y :: l1, l2, by rw [hdec, List.cons_append], ?_, hinit⟩
            intro a ha he
            rcases List.mem_cons.mp ha with rfl | ha
            · exact absurd he helig
            · exact hl1 a ha he

/-! Claim C2: the containment tier of `get_shortcuts`. -/

/-- Claim C2: when the resolved name is not an exact database key and
the strict normalized fuzzy pass yields no candidate, `get_shortcuts`
returns the containment tier's result: a key accepted only when the
normalized query is a substring of the normalized key, scored as
`len(query)/len(key)` plus a `0.2` bonus when the normalized key starts
with the query; the returned candidate scores at least `0.5`, its score
is maximal among all accepted keys, and it is the earliest key
attaining that score (every accepted key before it scores strictly
less, since a candidate replaces the best only with a strictly greater
score); when no accepted key reaches `0.5` the tier yields nothing and
the empty dict is returned.  The hypothesis that normalized keys are
non-empty excludes the inputs on which Python would raise
`ZeroDivisionError` in the score expression. -/
theorem claim_C2 (fileLines : List String) (db : ShortcutDb) (wt : Option String)
    (q : String)
    (hq : find_best_match fileLines wt = some q) (hq0 : q ≠ "")
    (hx : lookupDict db q = none)
    (hf : strictPass q db = none)
    (hnz : ∀ p ∈ db, 0 < (normalize_app_name p.1).length) :
    get_shortcuts fileLines db wt =
      some (match containmentBest (normalize_app_name q) (db.map (fun p => p.1)) with
        | some b => lookupD db b
        | none => []) ∧
    (∀ b, containmentBest (normalize_app_name q) (db.map (fun p => p.1)) = some b →
      isSubS (normalize_app_name q) (normalize_app_name b) = true ∧
      (1 : ℚ) / 2 ≤ (cScore (normalize_app_name q) b).toRat ∧
      (∀ a ∈ db.map (fun p => p.1),
        isSubS (normalize_app_name q) (normalize_app_name a) = true →
          (cScore (normalize_app_name q) a).toRat ≤
            (cScore (normalize_app_name q) b).toRat) ∧
      ∃ l1 l2, db.map (fun p => p.1) = l1 ++ b :: l2 ∧
        ∀ a ∈ l1, isSubS (normalize_app_name q) (normalize_app_name a) = true →
          (cScore (normalize_app_name q) a).toRat <
            (cScore (normalize_app_name q) b).toRat) ∧
    (containmentBest (normalize_app_name q) (db.map (fun p => p.1)) = none →
      ∀ a ∈ db.map (fun p => p.1),
        isSubS (normalize_app_name q) (normalize_app_name a) = true →
          (cScore (normalize_app_name q) a).toRat < 1 / 2) := by
  have hlens : ∀ a ∈ db.map (fun p => p.1), 0 < (normalize_app_name a).length := by
    intro a ha
    obtain ⟨p, hp, rfl⟩ := List.mem_map.mp ha
    exact hnz p hp
  obtain ⟨cfn, cfs⟩ := contain_fold (normalize_app_name q) (db.map (fun p => p.1))
    (none, ⟨0, 1⟩) hlens (fun _ => rfl) (fun b0 h => by simp at h)
  refine ⟨?_, ?_, ?_⟩
  · simp only [get_shortcuts, hq]
    rw [if_neg hq0]
    simp only [getShortcutsForApp, hx, hf]
  · intro b hb
    have hb2 : ((db.map (fun p => p.1)).foldl
        (containStep (normalize_app_name q)) (none, ⟨0, 1⟩)).1 = some b := hb
    obtain ⟨h1, h2, h3, h4, h5, h6⟩ := cfs b hb2
    refine ⟨h2, h4, h5, ?_⟩
    rcases h6 with ⟨hcontra, _⟩ | ⟨l1, l2, hdec, hl1, _⟩
    · simp at hcontra
    · exact ⟨l1, l2, hdec, hl1⟩
  · intro hn a ha he
    have hn2 : ((db.map (fun p => p.1)).foldl
        (containStep (normalize_app_name q)) (none, ⟨0, 1⟩)).1 = none := hn
    exact (cfn hn2).2 a ha he

/-- Witness for C2 at a concrete input: the resolved name "Chrome" is
not a key of the database `{"Google Chrome": ...}`, the strict pass
fails (similarity 2/3 < 0.9), and the containment tier matches
"Google Chrome" with score `6/12 = 0.5`. -/
theorem claim_C2_witness :
    get_shortcuts ["Chrome: 1"] [("Google Chrome", [("x", "y")])] (some "x - Chrome") =
      some (match containmentBest (normalize_app_name "Chrome")
          ([("Google Chrome", [("x", "y")])].map (fun p => p.1)) with
        | some b => lookupD [("Google Chrome", [("x", "y")])] b
        | none => []) ∧
    (∀ b, containmentBest (normalize_app_name "Chrome")
        ([("Google Chrome", [("x", "y")])].map (fun p => p.1)) = some b →
      isSubS (normalize_app_name "Chrome") (normalize_app_name b) = true ∧
      (1 : ℚ) / 2 ≤ (cScore (normalize_app_name "Chrome") b).toRat ∧
      (∀ a ∈ [("Google Chrome", [("x", "y")])].map (fun p => p.1),
        isSubS (normalize_app_name "Chrome") (normalize_app_name a) = true →
          (cScore (normalize_app_name "Chrome") a).toRat ≤
            (cScore (normalize_app_name "Chrome") b).toRat) ∧
      ∃ l1 l2, [("Google Chrome", [("x", "y")])].map (fun p => p.1) = l1 ++ b :: l2 ∧
        ∀ a ∈ l1, isSubS (normalize_app_name "Chrome") (normalize_app_name a) = true →
          (cScore (normalize_app_name "Chrome") a).toRat <
            (cScore (normalize_app_name "Chrome") b).toRat) ∧
    (containmentBest (normalize_app_name "Chrome")
        ([("Google Chrome", [("x", "y")])].map (fun p => p.1)) = none →
      ∀ a ∈ [("Google Chrome", [("x", "y")])].map (fun p => p.1),
        isSubS (normalize_app_name "Chrome") (normalize_app_name a) = true →
          (cScore (normalize_app_name "Chrome") a).toRat < 1 / 2) :=
  claim_C2 ["Chrome: 1"] [("Google Chrome", [("x", "y")])] (some "x - Chrome") "Chrome"
    (by decide) (by decide) (by decide) (by decide) (by decide)

/-! Claim C4: the no-match return value of `get_shortcuts`. -/

/-- Claim C4 evaluated at a failing input: with a loaded map whose only
key is "Notepad" and the unmatched title "qqqq", `find_best_match`
yields `None`, so the body of `get_shortcuts` skips its `if app_name:`
block and falls off the end of the function without a return statement:
Python returns `None` (`none`), not the empty dict that the claim, the
docstring and the code comment promise. -/
theorem claim_C4 :
    get_shortcuts ["Notepad: 1"] [("Notepad", [("a", "b")])] (some "qqqq") = none := by
  decide

/-! Claim C5: the update check. -/

/-- Claim C5: `check_for_db_updates` returns `False` exactly when the
persisted `processed_shortcuts` count equals the remote
`total_shortcuts` count, and `True` for an inequality in either
direction. -/
theorem claim_C5 (n remote : Int) :
    (check_for_db_updates (some (.entry (some n))) remote = false ↔ n = remote) ∧
    (n ≠ remote → check_for_db_updates (some (.entry (some n))) remote = true) := by
  constructor
  · constructor
    · intro hfalse
      by_contra hne
      simp [check_for_db_updates, get_local_shortcuts, hne] at hfalse
    · intro heq
      simp [check_for_db_updates, get_local_shortcuts, heq]
  · intro hne
    simp [check_for_db_updates, get_local_shortcuts, hne]

/-- Witness for C5 at the spec's scenario: local count 42 against remote
42 gives `False`; local 42 against remote 50 gives `True`. -/
theorem claim_C5_witness :
    check_for_db_updates (some (.entry (some 42))) 42 = false ∧
    check_for_db_updates (some (.entry (some 42))) 50 = true :=
  ⟨(claim_C5 42 42).1.mpr rfl, (claim_C5 42 50).2 (by decide)⟩

/-! Claims C6 and C7: cancellation logging and progress callbacks. -/

theorem dlDocs_cancel (total : Int) (k : Nat) (cancel : Nat → Bool) (fs : FsState)
    (h0 : total ≠ 0) (hcancel : ∀ n, cancel n = decide (k ≤ n)) :
    ∀ (ds : List String) (p : Nat) (cbs : List Frac), p < k → k ≤ p + ds.length →
    dlDocs total cancel fs ds p cbs =
      .error (.ret false, log_update "cancelled" (k : Int) fs,
        cbs ++ progList total (p + 1) (k - p)) := by
  intro ds
  induction ds with
  | nil =>
    intro p cbs h1 h2
    simp at h2
    exact absurd h1 (by omega)
  | cons d ds ih =>
    intro p cbs h1 h2
    simp only [dlDocs]
    rw [if_neg h0, hcancel]
    by_cases hk : k ≤ p + 1
    · have hkp : k = p + 1 := by omega
      rw [if_pos (by simp [hk])]
      have hsub : k - p = 1 := by omega
      rw [hsub, hkp]
      simp [progList]
    · rw [if_neg (by simp [hk])]
      rw [ih (p + 1) _ (by omega) (by simp at h2 ⊢; omega)]
      have hsub : k - p = (k - (p + 1)) + 1 := by omega
      rw [hsub]
      simp [progList]

theorem dlDocs_run (total : Int) (fs : FsState) (h0 : total ≠ 0) :
    ∀ (ds : List String) (p : Nat) (cbs : List Frac),
    dlDocs total (fun _ => false) fs ds p cbs =
      .ok (p + ds.length, cbs ++ progList total (p + 1) ds.length) := by
  intro ds
  induction ds with
  | nil => intro p cbs; simp [dlDocs, progList]
  | cons d ds ih =>
    intro p cbs
    simp only [dlDocs]
    rw [if_neg h0, if_neg (by simp)]
    rw [ih]
    have h1 : p + 1 + ds.length = p + (ds.length + 1) := by omega
    simp [progList, h1]

/-- Claim C6, amended: cancelling a download of a collection after its
`k`-th unit returns `False` and persists a log with status "cancelled"
whose `processed_shortcuts` field is `k - 1`, one less than the number
of units actually processed (`log_update` subtracts one); the progress
callback has fired for units `1..k`. -/
theorem claim_C6 (id : String) (docs : List String) (k : Nat) (total : Int)
    (fs : FsState) (h1 : 1 ≤ k) (h2 : k ≤ docs.length) (h0 : total ≠ 0)
    (hl : fs.localDb = none) :
    download_all_collections [.coll id docs] total (fun n => decide (k ≤ n)) fs =
      (.ret false, { fs with updateLog := some ("cancelled", (k : Int) - 1) },
        progList total 1 k) := by
  simp only [download_all_collections, hl, dlLoop]
  rw [if_neg (by simp; omega)]
  rw [dlDocs_cancel total k _ fs h0 (fun n => rfl) docs 0 [] (by omega) (by omega)]
  simp [log_update, hl]

/-- Counterexample to claim C6 as stated: cancelling after the 3rd unit
of a 10-document collection persists `processed_shortcuts = 2`, not the
3 units actually processed. -/
theorem claim_C6_cex :
    (download_all_collections
        [.coll "c" ["1", "2", "3", "4", "5", "6", "7", "8", "9", "10"]]
        10 (fun n => decide (3 ≤ n)) ⟨none, none, none⟩).2.1.updateLog =
      some ("cancelled", 2) ∧ (2 : Int) ≠ 3 := by
  constructor
  · decide
  · decide

/-- Witness for the amended claim C6: the spec's scenario with 10
documents, cancellation after the 3rd unit and remote total 10. -/
theorem claim_C6_witness :
    download_all_collections
        [.coll "c" ["1", "2", "3", "4", "5", "6", "7", "8", "9", "10"]]
        10 (fun n => decide (3 ≤ n)) ⟨none, none, none⟩ =
      (.ret false,
        { localDb := none, tempDb := none,
          updateLog := some ("cancelled", (3 : Int) - 1) }, progList 10 1 3) :=
  claim_C6 "c" ["1", "2", "3", "4", "5", "6", "7", "8", "9", "10"] 3 10
    ⟨none, none, none⟩ (by decide) (by decide) (by decide) rfl

theorem progList_toRat (total : Int) : ∀ (n a : Nat),
    (progList total a n).map Frac.toRat = progRats total a n := by
  intro n
  induction n with
  | zero => intro a; simp [progList, progRats]
  | succ m ih =>
    intro a
    simp only [progList, progRats, List.map_cons, ih]
    congr 1
    simp only [Frac.fmul, Frac.toRat]
    push_cast
    ring

theorem progRats_chain (total : Int) (h : 0 < total) : ∀ (n a : Nat),
    List.Chain' (· ≤ ·) (progRats total a n) := by
  have htot : (0 : ℚ) < (total : ℚ) := by exact_mod_cast h
  intro n
  induction n with
  | zero => intro a; simp [progRats]
  | succ m ih =>
    intro a
    cases m with
    | zero => simp [progRats]
    | succ m2 =>
      rw [progRats, progRats, List.chain'_cons]
      constructor
      · apply mul_le_mul_of_nonneg_right _ (by norm_num : (0 : ℚ) ≤ 100)
        exact (div_le_div_iff_of_pos_right htot).mpr (by push_cast; linarith)
      · rw [← progRats]
        exact ih (a + 1)

/-- Claim C7, amended: with a supplied callback and a positive remote
total, each callback of a one-collection download receives exactly
`processed/total*100` for `processed = 1..n`, and this sequence is
monotonically non-decreasing; the values are not clamped (they exceed
100 as soon as `processed > total`), and a remote total of 0 raises
`ZeroDivisionError` inside the loop, which the failure handler turns
into a failed log, so the computation is not defined at total 0. -/
theorem claim_C7 (id : String) (docs : List String) (total : Int) (fs : FsState)
    (h0 : 0 < total) (hl : fs.localDb = none) :
    (download_all_collections [.coll id docs] total (fun _ => false) fs).2.2.map
        Frac.toRat = progRats total 1 docs.length ∧
    List.Chain' (· ≤ ·)
      ((download_all_collections [.coll id docs] total (fun _ => false) fs).2.2.map
        Frac.toRat) := by
  have hrun : (download_all_collections [.coll id docs] total
      (fun _ => false) fs).2.2 = progList total 1 docs.length := by
    simp only [download_all_collections, hl, dlLoop]
    rw [if_neg (by simp)]
    rw [dlDocs_run total fs (by omega) docs 0 []]
    simp [dlLoop]
  rw [hrun, progList_toRat]
  exact ⟨rfl, progRats_chain total h0 _ _⟩

/-- Counterexample to claim C7 as stated: with remote total 1 and two
documents the second callback receives 200, which violates the claimed
clamping to the range `[0, 100]`. -/
theorem claim_C7_cex :
    (download_all_collections [.coll "c" ["a", "b"]] 1 (fun _ => false)
        ⟨none, none, none⟩).2.2.map Frac.toRat = [100, 200] ∧
    ¬((200 : ℚ) ≤ 100) := by
  constructor
  · have h : (download_all_collections [.coll "c" ["a", "b"]] 1 (fun _ => false)
        ⟨none, none, none⟩).2.2 = [⟨100, 1⟩, ⟨200, 1⟩] := by decide
    rw [h]
    norm_num [Frac.toRat]
  · norm_num

/-- Witness for the amended claim C7 at a concrete input. -/
theorem claim_C7_witness :
    (download_all_collections [.coll "c" ["a", "b"]] 5 (fun _ => false)
        ⟨none, none, none⟩).2.2.map Frac.toRat = progRats 5 1 (["a", "b"] : List String).length ∧
    List.Chain' (· ≤ ·)
      ((download_all_collections [.coll "c" ["a", "b"]] 5 (fun _ => false)
        ⟨none, none, none⟩).2.2.map Frac.toRat) :=
  claim_C7 "c" ["a", "b"] 5 ⟨none, none, none⟩ (by decide) rfl

/-! Claim C8: failure handling of `download_all_collections`. -/

/-- Claim C8 evaluated at a failing input: when the existing local
database file is malformed JSON, `json.load` raises before
`processed_shortcuts` is assigned, and the `except` handler's own
`log_update("failed", processed_shortcuts)` then raises `NameError`
out of the function: no "failed" log is written (the log file is left
as it was) and the exception escapes the boundary.  The local database
file itself is untouched (only the temp copy was created). -/
theorem claim_C8 :
    download_all_collections [.coll "c" ["d"]] 5 (fun _ => false)
        ⟨some .malformed, none, none⟩ =
      (.exn "NameError", ⟨some .malformed, some .malformed, none⟩, []) := by
  decide

/-! Claim C9: the shared cache timestamp. -/

/-- Claim C9 evaluated at a failing trace: both caches are populated at
time 0 with TTL 1; at time 2 both TTLs have elapsed and the shortcut
database file has changed, yet the resolution call returns the old
shortcuts.  The app-map reload (which runs first) resets the shared
`last_load_time` to 2, so the shortcut-cache expiry test compares
against the fresh timestamp and keeps the stale cache: the shortcut
cache's staleness is not bounded by its own TTL. -/
theorem claim_C9 :
    (get_shortcuts_st (some c9MapLines) (some (.infos c9DbNew)) 2 1 c9State1
        (some "App window")).1 = some [("copy", "ctrl+c")] ∧
    (get_shortcuts_st (some c9MapLines) (some (.infos c9DbNew)) 2 1 c9State1
        (some "App window")).2.shortcutCache = some c9DbOld ∧
    (get_shortcuts_st (some c9MapLines) (some (.infos c9DbNew)) 2 1 c9State1
        (some "App window")).2.lastLoadTime = 2 ∧
    c9State1.lastLoadTime = 0 ∧
    c9State1.shortcutCache = some c9DbOld ∧
    c9DbOld ≠ c9DbNew := by
  refine ⟨by decide, by decide, by decide, by decide, by decide, by decide⟩

/-! Claim C10: falsy window titles. -/

/-- Claim C10: for a `None` or empty window title, `find_best_match`
returns `None` (the embedded function is total, so no exception
escapes), letting a `(None, None)` probe result flow through as a clean
no-match. -/
theorem claim_C10 (fileLines : List String) (wt : Option String)
    (h : wt = none ∨ wt = some "") : find_best_match fileLines wt = none := by
  rcases h with rfl | rfl
  · rfl
  · rfl

/-- Witness for C10 at a concrete input. -/
theorem claim_C10_witness : find_best_match ["A: 1"] none = none :=
  claim_C10 ["A: 1"] none (Or.inl rfl)

end HotkeyHelper
